import Mathlib

/-!
Verification of the row-wise streaming softmax reducer demonstrated in
`triton_kernel_dev.ipynb` (`softmax_kernel_naive` and `softmax_kernel_v1`).

The kernels operate on one row of floating-point values, processed in
chunks of `BLOCK_SIZE` columns.  Out-of-range lanes are loaded as `-inf`
(the `other=-float('inf')` argument of `tl.load`), which is the identity
for the max reduction and contributes `exp(-inf - m) = 0` to the
exponential sums.  We model the float values exactly: a value is either a
finite real number, `-inf`, `+inf`, or NaN, and the arithmetic operations
follow the IEEE special-value rules (with exact real arithmetic on the
finite parts, i.e. no rounding).  `tl.maximum` / `tl.max` use Triton's
default `propagate_nan=NONE`, i.e. LLVM `maxnum` semantics: if exactly one
operand is NaN the other operand is returned.
-/

noncomputable section

/-- A floating-point value: finite real, `-inf`, `+inf`, or NaN.
Finite arithmetic is exact (real); special values follow IEEE rules. -/
inductive F where
  | num : ℝ → F
  | ninf : F
  | pinf : F
  | nan : F

/-- IEEE addition on `F`. -/
def F.add : F → F → F
  | nan, _ => nan
  | _, nan => nan
  | num a, num b => num (a + b)
  | num _, ninf => ninf
  | num _, pinf => pinf
  | ninf, num _ => ninf
  | pinf, num _ => pinf
  | ninf, ninf => ninf
  | pinf, pinf => pinf
  | ninf, pinf => nan
  | pinf, ninf => nan

/-- IEEE subtraction on `F`; note `(-inf) - (-inf) = NaN`. -/
def F.sub : F → F → F
  | nan, _ => nan
  | _, nan => nan
  | num a, num b => num (a - b)
  | num _, ninf => pinf
  | num _, pinf => ninf
  | ninf, num _ => ninf
  | pinf, num _ => pinf
  | ninf, ninf => nan
  | pinf, pinf => nan
  | ninf, pinf => ninf
  | pinf, ninf => pinf

/-- IEEE multiplication on `F`; note `0 * (±inf) = NaN` and `0 * NaN = NaN`. -/
def F.mul : F → F → F
  | nan, _ => nan
  | _, nan => nan
  | num a, num b => num (a * b)
  | num a, pinf => if a = 0 then nan else if 0 < a then pinf else ninf
  | num a, ninf => if a = 0 then nan else if 0 < a then ninf else pinf
  | pinf, num b => if b = 0 then nan else if 0 < b then pinf else ninf
  | ninf, num b => if b = 0 then nan else if 0 < b then ninf else pinf
  | pinf, pinf => pinf
  | ninf, ninf => pinf
  | pinf, ninf => ninf
  | ninf, pinf => ninf

/-- IEEE division on `F` (positive zero only; `0 / 0 = NaN`). -/
def F.div : F → F → F
  | nan, _ => nan
  | _, nan => nan
  | num a, num b =>
      if b = 0 then (if a = 0 then nan else if 0 < a then pinf else ninf)
      else num (a / b)
  | num _, pinf => num 0
  | num _, ninf => num 0
  | ninf, num b => if 0 ≤ b then ninf else pinf
  | pinf, num b => if 0 ≤ b then pinf else ninf
  | ninf, ninf => nan
  | ninf, pinf => nan
  | pinf, pinf => nan
  | pinf, ninf => nan

/-- `tl.maximum` with Triton's default `propagate_nan=NONE` (LLVM `maxnum`):
a single NaN operand yields the other operand. -/
def F.max : F → F → F
  | nan, y => y
  | x, nan => x
  | ninf, y => y
  | x, ninf => x
  | pinf, _ => pinf
  | _, pinf => pinf
  | num a, num b => num (Max.max a b)

/-- `tl.exp` on `F`: `exp(-inf) = 0`, `exp(+inf) = +inf`, `exp(NaN) = NaN`,
exact real `exp` on finite values. -/
def F.exp : F → F
  | num a => num (Real.exp a)
  | ninf => num 0
  | pinf => pinf
  | nan => nan

@[simp] lemma F.add_nan_left (y : F) : F.add F.nan y = F.nan := by cases y <;> rfl
@[simp] lemma F.add_nan_right (x : F) : F.add x F.nan = F.nan := by cases x <;> rfl
@[simp] lemma F.add_num_num (a b : ℝ) : F.add (F.num a) (F.num b) = F.num (a + b) := rfl
@[simp] lemma F.add_num_ninf (a : ℝ) : F.add (F.num a) F.ninf = F.ninf := rfl
@[simp] lemma F.add_ninf_num (a : ℝ) : F.add F.ninf (F.num a) = F.ninf := rfl
@[simp] lemma F.add_ninf_ninf : F.add F.ninf F.ninf = F.ninf := rfl

@[simp] lemma F.sub_nan_left (y : F) : F.sub F.nan y = F.nan := by cases y <;> rfl
@[simp] lemma F.sub_nan_right (x : F) : F.sub x F.nan = F.nan := by cases x <;> rfl
@[simp] lemma F.sub_num_num (a b : ℝ) : F.sub (F.num a) (F.num b) = F.num (a - b) := rfl
@[simp] lemma F.sub_ninf_num (a : ℝ) : F.sub F.ninf (F.num a) = F.ninf := rfl
@[simp] lemma F.sub_num_ninf (a : ℝ) : F.sub (F.num a) F.ninf = F.pinf := rfl
@[simp] lemma F.sub_ninf_ninf : F.sub F.ninf F.ninf = F.nan := rfl

@[simp] lemma F.mul_nan_left (y : F) : F.mul F.nan y = F.nan := by cases y <;> rfl
@[simp] lemma F.mul_nan_right (x : F) : F.mul x F.nan = F.nan := by cases x <;> rfl
@[simp] lemma F.mul_num_num (a b : ℝ) : F.mul (F.num a) (F.num b) = F.num (a * b) := rfl

@[simp] lemma F.div_nan_left (y : F) : F.div F.nan y = F.nan := by cases y <;> rfl
@[simp] lemma F.div_nan_right (x : F) : F.div x F.nan = F.nan := by cases x <;> rfl
lemma F.div_num_num (a b : ℝ) (hb : b ≠ 0) :
    F.div (F.num a) (F.num b) = F.num (a / b) := by
  simp [F.div, hb]

@[simp] lemma F.max_nan_left (y : F) : F.max F.nan y = y := by cases y <;> rfl
@[simp] lemma F.max_nan_right (x : F) : F.max x F.nan = x := by cases x <;> rfl
@[simp] lemma F.max_ninf_num (b : ℝ) : F.max F.ninf (F.num b) = F.num b := rfl
@[simp] lemma F.max_num_ninf (a : ℝ) : F.max (F.num a) F.ninf = F.num a := rfl
@[simp] lemma F.max_ninf_ninf : F.max F.ninf F.ninf = F.ninf := rfl
@[simp] lemma F.max_num_num (a b : ℝ) :
    F.max (F.num a) (F.num b) = F.num (Max.max a b) := rfl

@[simp] lemma F.exp_num (a : ℝ) : F.exp (F.num a) = F.num (Real.exp a) := rfl
@[simp] lemma F.exp_ninf : F.exp F.ninf = F.num 0 := rfl
@[simp] lemma F.exp_nan : F.exp F.nan = F.nan := rfl

/-- A value that is finite or `-inf` (the values reachable from masked loads
of non-NaN data): the domain on which `F.max` behaves like a lattice max. -/
def F.isExt (v : F) : Prop := v = F.ninf ∨ ∃ r : ℝ, v = F.num r

lemma F.isExt_ninf : F.ninf.isExt := Or.inl rfl

lemma F.isExt_num (r : ℝ) : (F.num r).isExt := Or.inr ⟨r, rfl⟩

lemma F.max_ninf_left {x : F} (hx : x.isExt) : F.max F.ninf x = x := by
  rcases hx with h | ⟨r, h⟩ <;> subst h <;> simp

lemma F.max_isExt {x y : F} (hx : x.isExt) (hy : y.isExt) : (F.max x y).isExt := by
  rcases hx with h | ⟨r, h⟩ <;> rcases hy with h2 | ⟨s, h2⟩ <;> subst h <;> subst h2 <;>
    simp [F.isExt_ninf, F.isExt_num]

lemma F.max_assoc_ext {x y z : F} (hx : x.isExt) (hy : y.isExt) (hz : z.isExt) :
    F.max (F.max x y) z = F.max x (F.max y z) := by
  rcases hx with h | ⟨r, h⟩ <;> rcases hy with h2 | ⟨s, h2⟩ <;>
    rcases hz with h3 | ⟨t, h3⟩ <;> subst h <;> subst h2 <;> subst h3 <;>
    simp [max_assoc]

/-- Split a list into consecutive chunks of `c` elements (the last chunk may
be shorter), mirroring the kernels' loop
`for offset in range(0, n_cols, BLOCK_SIZE)` together with the bounds mask
`col_range + offset < n_cols`.  A step of `0` would make the Python `range`
raise before producing any chunk, so `c = 0` yields no chunks. -/
def chunkList {α : Type} (c : ℕ) (l : List α) : List (List α) :=
  match l with
  | [] => []
  | x :: xs =>
      if _hc : c = 0 then []
      else (x :: xs).take c :: chunkList c ((x :: xs).drop c)
termination_by l.length
decreasing_by
  simp only [List.length_drop, List.length_cons]
  omega

lemma chunkList_nil {α : Type} (c : ℕ) : chunkList c ([] : List α) = [] := by
  rw [chunkList]

lemma chunkList_cons {α : Type} {c : ℕ} (hc : c ≠ 0) {l : List α} (hl : l ≠ []) :
    chunkList c l = l.take c :: chunkList c (l.drop c) := by
  cases l with
  | nil => exact absurd rfl hl
  | cons x xs =>
      rw [chunkList]
      simp [hc]

lemma chunkList_join_aux {α : Type} {c : ℕ} (hc : c ≠ 0) :
    ∀ (n : ℕ) (l : List α), l.length ≤ n → (chunkList c l).flatten = l := by
  intro n
  induction n with
  | zero =>
      intro l hl
      have : l = [] := List.length_eq_zero.mp (Nat.le_zero.mp hl)
      subst this
      simp [chunkList_nil]
  | succ n ih =>
      intro l hl
      by_cases h : l = []
      · subst h; simp [chunkList_nil]
      · rw [chunkList_cons hc h]
        have hdrop : (l.drop c).length ≤ n := by
          have := List.length_pos.mpr h
          simp only [List.length_drop]
          omega
        simp only [List.flatten_cons, ih (l.drop c) hdrop, List.take_append_drop]

/-- The chunks cover the row exactly: concatenating them gives back the row. -/
lemma chunkList_join {α : Type} {c : ℕ} (hc : c ≠ 0) (l : List α) :
    (chunkList c l).flatten = l :=
  chunkList_join_aux hc l.length l le_rfl

lemma chunkList_ne_nil_aux {α : Type} {c : ℕ} (hc : c ≠ 0) :
    ∀ (n : ℕ) (l : List α), l.length ≤ n → ∀ ch ∈ chunkList c l, ch ≠ [] := by
  intro n
  induction n with
  | zero =>
      intro l hl ch hch
      have : l = [] := List.length_eq_zero.mp (Nat.le_zero.mp hl)
      subst this
      simp [chunkList_nil] at hch
  | succ n ih =>
      intro l hl ch hch
      by_cases h : l = []
      · subst h; simp [chunkList_nil] at hch
      · rw [chunkList_cons hc h] at hch
        rcases List.mem_cons.mp hch with h1 | h1
        · subst h1
          intro habs
          rcases List.take_eq_nil_iff.mp habs with h2 | h2
          · exact hc h2
          · exact h h2
        · have hdrop : (l.drop c).length ≤ n := by
            have := List.length_pos.mpr h
            simp only [List.length_drop]
            omega
          exact ih (l.drop c) hdrop ch h1

/-- Every chunk is nonempty: the loop only issues an iteration when
`offset < n_cols`, so at least one lane of each chunk is in bounds. -/
lemma chunkList_ne_nil {α : Type} {c : ℕ} (hc : c ≠ 0) {l : List α} {ch : List α}
    (hch : ch ∈ chunkList c l) : ch ≠ [] :=
  chunkList_ne_nil_aux hc l.length l le_rfl ch hch

lemma mem_of_mem_chunkList {α : Type} {c : ℕ} (hc : c ≠ 0) {l ch : List α} {v : α}
    (hch : ch ∈ chunkList c l) (hv : v ∈ ch) : v ∈ l := by
  have : v ∈ (chunkList c l).flatten := List.mem_flatten.mpr ⟨ch, hch, hv⟩
  rwa [chunkList_join hc] at this

/-- The finite (real-valued) entries of a list of float values, in order. -/
def finVals : List F → List ℝ
  | [] => []
  | F.num r :: xs => r :: finVals xs
  | F.ninf :: xs => finVals xs
  | F.pinf :: xs => finVals xs
  | F.nan :: xs => finVals xs

@[simp] lemma finVals_nil : finVals [] = [] := rfl
@[simp] lemma finVals_num (r : ℝ) (xs : List F) :
    finVals (F.num r :: xs) = r :: finVals xs := rfl
@[simp] lemma finVals_ninf (xs : List F) : finVals (F.ninf :: xs) = finVals xs := rfl
@[simp] lemma finVals_pinf (xs : List F) : finVals (F.pinf :: xs) = finVals xs := rfl
@[simp] lemma finVals_nan (xs : List F) : finVals (F.nan :: xs) = finVals xs := rfl

lemma finVals_append (A B : List F) :
    finVals (A ++ B) = finVals A ++ finVals B := by
  induction A with
  | nil => simp
  | cons v t ih => cases v <;> simp [ih]

@[simp] lemma finVals_map_num (rs : List ℝ) : finVals (rs.map F.num) = rs := by
  induction rs with
  | nil => simp
  | cons r t ih => simp [ih]

lemma mem_finVals {l : List F} {x : ℝ} : x ∈ finVals l ↔ F.num x ∈ l := by
  induction l with
  | nil => simp
  | cons v t ih => cases v <;> simp [ih]

/-- The maximum of a row of reals (`0` as junk value for the empty row,
which never occurs under the kernels' preconditions). -/
def rowMax : List ℝ → ℝ
  | [] => 0
  | x :: xs => xs.foldl Max.max x

/-- The stabilized exponential sum of a row: `sum over v of exp (v - M)`. -/
def rowExpSum (M : ℝ) (l : List ℝ) : ℝ := (l.map (fun v => Real.exp (v - M))).sum

/-- The reference softmax of a row, exactly as the specification states it:
entry `i` is `exp (in i - M) / S` with `M` the row maximum and `S` the
stabilized exponential sum. -/
def softmaxSpec (l : List ℝ) : List ℝ :=
  l.map (fun v => Real.exp (v - rowMax l) / rowExpSum (rowMax l) l)

lemma le_foldl_max_init (l : List ℝ) (a : ℝ) : a ≤ l.foldl Max.max a := by
  induction l generalizing a with
  | nil => exact le_rfl
  | cons b t ih => exact le_trans (le_max_left a b) (ih (Max.max a b))

lemma foldl_max_max (l : List ℝ) (a b : ℝ) :
    l.foldl Max.max (Max.max a b) = Max.max a (l.foldl Max.max b) := by
  induction l generalizing b with
  | nil => rfl
  | cons cc t ih =>
      simp only [List.foldl_cons]
      rw [max_assoc, ih]

lemma rowMax_cons {l : List ℝ} (x : ℝ) (hl : l ≠ []) :
    rowMax (x :: l) = Max.max x (rowMax l) := by
  cases l with
  | nil => exact absurd rfl hl
  | cons y ys =>
      show (y :: ys).foldl Max.max x = _
      simp only [List.foldl_cons]
      exact foldl_max_max ys x y

lemma mem_le_rowMax {l : List ℝ} {x : ℝ} (hx : x ∈ l) : x ≤ rowMax l := by
  induction l with
  | nil => simp at hx
  | cons a t ih =>
      rcases List.mem_cons.mp hx with h | h
      · subst h
        exact le_foldl_max_init t x
      · have ht : t ≠ [] := List.ne_nil_of_mem h
        rw [rowMax_cons a ht]
        exact le_trans (ih h) (le_max_right a (rowMax t))

lemma rowMax_append {A : List ℝ} (B : List ℝ) (hA : A ≠ []) :
    rowMax (A ++ B) = B.foldl Max.max (rowMax A) := by
  cases A with
  | nil => exact absurd rfl hA
  | cons x xs =>
      show (xs ++ B).foldl Max.max x = _
      rw [List.foldl_append]
      rfl

lemma foldl_max_eq {l : List ℝ} (a : ℝ) (hl : l ≠ []) :
    l.foldl Max.max a = Max.max a (rowMax l) := by
  cases l with
  | nil => exact absurd rfl hl
  | cons x xs =>
      simp only [List.foldl_cons]
      exact foldl_max_max xs a x

@[simp] lemma rowExpSum_nil (M : ℝ) : rowExpSum M [] = 0 := rfl

@[simp] lemma rowExpSum_cons (M x : ℝ) (l : List ℝ) :
    rowExpSum M (x :: l) = Real.exp (x - M) + rowExpSum M l := by
  simp [rowExpSum]

lemma rowExpSum_append (M : ℝ) (A B : List ℝ) :
    rowExpSum M (A ++ B) = rowExpSum M A + rowExpSum M B := by
  simp [rowExpSum]

lemma rowExpSum_rescale (M₁ M₂ : ℝ) (l : List ℝ) :
    rowExpSum M₁ l * Real.exp (M₁ - M₂) = rowExpSum M₂ l := by
  induction l with
  | nil => simp
  | cons x t ih =>
      rw [rowExpSum_cons, rowExpSum_cons, add_mul, ih, ← Real.exp_add]
      ring_nf

lemma rowExpSum_nonneg (M : ℝ) (l : List ℝ) : 0 ≤ rowExpSum M l := by
  induction l with
  | nil => simp
  | cons x t ih => rw [rowExpSum_cons]; positivity

lemma rowExpSum_pos (M : ℝ) {l : List ℝ} (hl : l ≠ []) : 0 < rowExpSum M l := by
  cases l with
  | nil => exact absurd rfl hl
  | cons x t =>
      rw [rowExpSum_cons]
      have := rowExpSum_nonneg M t
      have := Real.exp_pos (x - M)
      linarith

lemma exp_le_rowExpSum {M x : ℝ} {l : List ℝ} (hx : x ∈ l) :
    Real.exp (x - M) ≤ rowExpSum M l := by
  induction l with
  | nil => simp at hx
  | cons a t ih =>
      rw [rowExpSum_cons]
      rcases List.mem_cons.mp hx with h | h
      · subst h
        have := rowExpSum_nonneg M t
        linarith
      · have := Real.exp_pos (a - M)
        have := ih h
        linarith

lemma exp_lt_rowExpSum {M x : ℝ} {l : List ℝ} (hx : x ∈ l) (hlen : 2 ≤ l.length) :
    Real.exp (x - M) < rowExpSum M l := by
  cases l with
  | nil => simp at hx
  | cons a t =>
      rw [rowExpSum_cons]
      rcases List.mem_cons.mp hx with h | h
      · subst h
        have ht : t ≠ [] := by
          intro habs
          subst habs
          simp at hlen
        have := rowExpSum_pos M ht
        linarith
      · have := Real.exp_pos (a - M)
        have := exp_le_rowExpSum (M := M) h
        linarith

/-- `tl.max(in_data, axis=-1)`: max-reduction of one chunk.  The reduction is
over all `BLOCK_SIZE` lanes; out-of-range lanes hold `-inf`
(`other=-float('inf')`), so folding the in-range lanes with `-inf` as the
initial value is exactly the reduction of the padded vector. -/
def chunkMax (ch : List F) : F := ch.foldr F.max F.ninf

@[simp] lemma chunkMax_nil : chunkMax [] = F.ninf := rfl
@[simp] lemma chunkMax_cons (v : F) (t : List F) :
    chunkMax (v :: t) = F.max v (chunkMax t) := rfl

/-- `tl.sum(tl.exp(in_data - m), axis=-1)`: the chunk's contribution to the
exponential sum at reference maximum `m`.  Out-of-range lanes hold `-inf` and
contribute `exp(-inf - m)`; whenever some in-range lane decides the result
(`m` finite, giving `exp(-inf - m) = 0`, or an in-range lane already NaN)
dropping the padded lanes does not change the sum, so we fold the in-range
lanes only, with `0` as the initial value. -/
def chunkExpSum (m : F) (ch : List F) : F :=
  (ch.map (fun v => F.exp (F.sub v m))).foldr F.add (F.num 0)

@[simp] lemma chunkExpSum_nil (m : F) : chunkExpSum m [] = F.num 0 := rfl
@[simp] lemma chunkExpSum_cons (m v : F) (t : List F) :
    chunkExpSum m (v :: t) = F.add (F.exp (F.sub v m)) (chunkExpSum m t) := rfl

/-- One iteration of the accumulation loop of `softmax_kernel_v1`:
`in_max_new = tl.maximum(in_max, tl.max(in_data, axis=-1))`;
`in_exp_sum = in_exp_sum * tl.exp(in_max - in_max_new)
              + tl.sum(tl.exp(in_data - in_max_new), axis=-1)`;
`in_max = in_max_new`.  The state is the pair `(in_max, in_exp_sum)`. -/
def accumStep (s : F × F) (ch : List F) : F × F :=
  let newMax := F.max s.1 (chunkMax ch)
  (newMax, F.add (F.mul s.2 (F.exp (F.sub s.1 newMax))) (chunkExpSum newMax ch))

/-- The full accumulation loop of `softmax_kernel_v1` over all chunks of a
row, starting from `in_max = -inf`, `in_exp_sum = 0.0`. -/
def accumRow (c : ℕ) (row : List F) : F × F :=
  (chunkList c row).foldl accumStep (F.ninf, F.num 0)

/-- The emission (second) pass applied to one chunk: store
`tl.exp(in_data - in_max) / in_exp_sum` for the in-range lanes (the store is
masked, so out-of-range lanes are not written). -/
def emitChunk (m s : F) (ch : List F) : List F :=
  ch.map (fun v => F.div (F.exp (F.sub v m)) s)

/-- `softmax_kernel_v1`: single accumulation pass (online max/sum
recurrence), then the emission pass over the chunks in order. -/
def softmaxV1 (c : ℕ) (row : List F) : List F :=
  ((chunkList c row).map
    (emitChunk (accumRow c row).1 (accumRow c row).2)).flatten

/-- Pass 1 of `softmax_kernel_naive`: chunked max reduction,
`in_max = tl.maximum(in_max, tl.max(in_data, axis=-1))` from `-inf`. -/
def naiveMax (c : ℕ) (row : List F) : F :=
  (chunkList c row).foldl (fun m ch => F.max m (chunkMax ch)) F.ninf

/-- Pass 2 of `softmax_kernel_naive`: chunked exponential-sum reduction,
`in_exp_sum = in_exp_sum + tl.sum(tl.exp(in_data - in_max), axis=-1)`
from `0.0`, at the already-final maximum `m`. -/
def naiveExpSum (c : ℕ) (row : List F) (m : F) : F :=
  (chunkList c row).foldl (fun s ch => F.add s (chunkExpSum m ch)) (F.num 0)

/-- `softmax_kernel_naive`: three chunked passes (max, exponential sum,
write); the write pass is the same emission as in `softmax_kernel_v1`. -/
def softmaxNaive (c : ℕ) (row : List F) : List F :=
  ((chunkList c row).map
    (emitChunk (naiveMax c row) (naiveExpSum c row (naiveMax c row)))).flatten

/-- One iteration of the accumulation loop, instrumented to record every
argument passed to `tl.exp`: the rescale argument `in_max - in_max_new` and
the lane arguments `in_data - in_max_new`. -/
def accumExpArgsStep (st : F × List F) (ch : List F) : F × List F :=
  let newMax := F.max st.1 (chunkMax ch)
  (newMax, st.2 ++ (F.sub st.1 newMax :: ch.map (fun v => F.sub v newMax)))

/-- All arguments passed to `tl.exp` during the accumulation loop of
`softmax_kernel_v1`, in order. -/
def accumExpArgs (c : ℕ) (row : List F) : List F :=
  ((chunkList c row).foldl accumExpArgsStep (F.ninf, [])).2

/-- All arguments passed to `tl.exp` during the emission loop of
`softmax_kernel_v1` (`in_data - in_max` for the in-range lanes of each
chunk), in order. -/
def emitExpArgs (c : ℕ) (row : List F) : List F :=
  ((chunkList c row).map (fun ch => ch.map (fun v => F.sub v (accumRow c row).1))).flatten

/-- A float value that is `≤ 0`: either `-inf` or a nonpositive finite real.
`exp` of such a value cannot overflow. -/
def F.nonpos (a : F) : Prop := a = F.ninf ∨ ∃ r : ℝ, a = F.num r ∧ r ≤ 0

lemma chunkMax_isExt {ch : List F} (hext : ∀ v ∈ ch, v.isExt) :
    (chunkMax ch).isExt := by
  induction ch with
  | nil => exact F.isExt_ninf
  | cons v t ih =>
      rw [chunkMax_cons]
      exact F.max_isExt (hext v (List.mem_cons_self v t))
        (ih fun w hw => hext w (List.mem_cons_of_mem v hw))

lemma chunkMax_no_fin {ch : List F} (hext : ∀ v ∈ ch, v.isExt)
    (hfc : finVals ch = []) : chunkMax ch = F.ninf := by
  induction ch with
  | nil => rfl
  | cons v t ih =>
      rcases hext v (List.mem_cons_self v t) with h | ⟨r, h⟩
      · subst h
        rw [chunkMax_cons]
        rw [finVals_ninf] at hfc
        rw [ih (fun w hw => hext w (List.mem_cons_of_mem _ hw)) hfc]
        simp
      · subst h
        simp at hfc

lemma chunkMax_fin {ch : List F} (hext : ∀ v ∈ ch, v.isExt)
    (hfc : finVals ch ≠ []) : chunkMax ch = F.num (rowMax (finVals ch)) := by
  induction ch with
  | nil => exact absurd rfl hfc
  | cons v t ih =>
      rcases hext v (List.mem_cons_self v t) with h | ⟨r, h⟩
      · subst h
        rw [finVals_ninf] at hfc ⊢
        rw [chunkMax_cons, ih (fun w hw => hext w (List.mem_cons_of_mem _ hw)) hfc]
        simp
      · subst h
        rw [chunkMax_cons, finVals_num]
        by_cases hft : finVals t = []
        · rw [chunkMax_no_fin (fun w hw => hext w (List.mem_cons_of_mem _ hw)) hft, hft]
          simp [rowMax]
        · rw [ih (fun w hw => hext w (List.mem_cons_of_mem _ hw)) hft,
            rowMax_cons r hft]
          simp

lemma chunkExpSum_fin (m : ℝ) {ch : List F} (hext : ∀ v ∈ ch, v.isExt) :
    chunkExpSum (F.num m) ch = F.num (rowExpSum m (finVals ch)) := by
  induction ch with
  | nil => simp
  | cons v t ih =>
      rcases hext v (List.mem_cons_self v t) with h | ⟨r, h⟩ <;> subst h
      · rw [chunkExpSum_cons, ih (fun w hw => hext w (List.mem_cons_of_mem _ hw))]
        simp
      · rw [chunkExpSum_cons, ih (fun w hw => hext w (List.mem_cons_of_mem _ hw))]
        simp

lemma accumStep_good_empty {ch : List F} (hext : ∀ v ∈ ch, v.isExt)
    (hfc : finVals ch = []) (M S : ℝ) :
    accumStep (F.num M, F.num S) ch = (F.num M, F.num S) := by
  simp only [accumStep, chunkMax_no_fin hext hfc, F.max_num_ninf,
    chunkExpSum_fin M hext, hfc, rowExpSum_nil, F.sub_num_num, sub_self,
    Real.exp_zero, F.exp_num, F.mul_num_num, mul_one, F.add_num_num, add_zero]

lemma accumStep_good_fin {ch : List F} (hext : ∀ v ∈ ch, v.isExt)
    (hfc : finVals ch ≠ []) (M S : ℝ) :
    accumStep (F.num M, F.num S) ch =
      (F.num (Max.max M (rowMax (finVals ch))),
       F.num (S * Real.exp (M - Max.max M (rowMax (finVals ch)))
         + rowExpSum (Max.max M (rowMax (finVals ch))) (finVals ch))) := by
  simp only [accumStep, chunkMax_fin hext hfc, F.max_num_num,
    chunkExpSum_fin _ hext, F.sub_num_num, F.exp_num, F.mul_num_num,
    F.add_num_num]

/-- Processing the first chunk from the sentinel state
`(in_max, in_exp_sum) = (-inf, 0)`: when the chunk has at least one finite
lane, the rescale term `0 * exp(-inf - in_max_new)` is exactly `0` and the
resulting state is the plain max / plain stabilized exponential sum of the
chunk, as if no sentinel initialization had occurred. -/
lemma accumStep_init {ch : List F} (hext : ∀ v ∈ ch, v.isExt)
    (hfc : finVals ch ≠ []) :
    accumStep (F.ninf, F.num 0) ch =
      (F.num (rowMax (finVals ch)),
       F.num (rowExpSum (rowMax (finVals ch)) (finVals ch))) := by
  simp only [accumStep, chunkMax_fin hext hfc, F.max_ninf_num,
    chunkExpSum_fin _ hext, F.sub_ninf_num, F.exp_ninf, F.mul_num_num,
    mul_zero, F.add_num_num, zero_add]

/-- Invariant of the accumulation loop of `softmax_kernel_v1`, from an
arbitrary finite state `(in_max, in_exp_sum) = (M, S)`: after folding any
further chunks whose lanes are finite or `-inf`, the running maximum is the
max of `M` with all further finite lanes, and the running sum is `S`
rescaled to the new maximum plus the stabilized exponential sum of the
further finite lanes. -/
lemma foldl_accum_good (chs : List (List F))
    (hext : ∀ ch ∈ chs, ∀ v ∈ ch, v.isExt) : ∀ M S : ℝ,
    chs.foldl accumStep (F.num M, F.num S) =
      (F.num ((finVals chs.flatten).foldl Max.max M),
       F.num (S * Real.exp (M - (finVals chs.flatten).foldl Max.max M)
         + rowExpSum ((finVals chs.flatten).foldl Max.max M)
             (finVals chs.flatten))) := by
  induction chs with
  | nil => intro M S; simp
  | cons ch rest ih =>
      intro M S
      have hch : ∀ v ∈ ch, v.isExt := hext ch (List.mem_cons_self ch rest)
      have hrest : ∀ ch2 ∈ rest, ∀ v ∈ ch2, v.isExt :=
        fun ch2 h2 => hext ch2 (List.mem_cons_of_mem ch h2)
      rw [List.foldl_cons]
      by_cases hfc : finVals ch = []
      · rw [accumStep_good_empty hch hfc, ih hrest M S]
        simp [List.flatten_cons, finVals_append, hfc]
      · rw [accumStep_good_fin hch hfc, ih hrest]
        simp only [List.flatten_cons, finVals_append, List.foldl_append,
          foldl_max_eq M hfc, rowExpSum_append, Prod.mk.injEq, F.num.injEq]
        constructor
        · trivial
        · have h2 : Real.exp (M - Max.max M (rowMax (finVals ch)))
              * Real.exp (Max.max M (rowMax (finVals ch))
                  - (finVals rest.flatten).foldl Max.max
                      (Max.max M (rowMax (finVals ch))))
              = Real.exp (M - (finVals rest.flatten).foldl Max.max
                  (Max.max M (rowMax (finVals ch)))) := by
            rw [← Real.exp_add, sub_add_sub_cancel]
          have h3 := rowExpSum_rescale (Max.max M (rowMax (finVals ch)))
            ((finVals rest.flatten).foldl Max.max
              (Max.max M (rowMax (finVals ch)))) (finVals ch)
          linear_combination S * h2 + h3

/-- Closed form of the accumulation loop of `softmax_kernel_v1`: when the
first chunk contains at least one finite lane (in particular for every
nonempty all-finite row), the final running maximum is the row maximum over
the finite lanes and the final running sum is the stabilized exponential
sum over the finite lanes. -/
lemma accumRow_closed {c : ℕ} (hc : c ≠ 0) {row : List F}
    (hext : ∀ v ∈ row, v.isExt) (hfirst : finVals (row.take c) ≠ []) :
    accumRow c row =
      (F.num (rowMax (finVals row)),
       F.num (rowExpSum (rowMax (finVals row)) (finVals row))) := by
  have hrow : row ≠ [] := by
    intro h
    subst h
    simp at hfirst
  rw [accumRow, chunkList_cons hc hrow, List.foldl_cons]
  have htake : ∀ v ∈ row.take c, v.isExt :=
    fun v hv => hext v (List.take_subset c row hv)
  rw [accumStep_init htake hfirst]
  have hrest : ∀ ch ∈ chunkList c (row.drop c), ∀ v ∈ ch, v.isExt :=
    fun ch hch v hv => hext v (List.drop_subset c row (mem_of_mem_chunkList hc hch hv))
  rw [foldl_accum_good _ hrest, chunkList_join hc]
  have hsplit : finVals row = finVals (row.take c) ++ finVals (row.drop c) := by
    conv_lhs => rw [← List.take_append_drop c row]
    exact finVals_append _ _
  rw [hsplit, rowMax_append _ hfirst, rowExpSum_append, rowExpSum_rescale]

/-- The emission pass writes, lane by lane across the chunks in order,
`exp(v - in_max) / in_exp_sum` for every in-range lane `v` of the row. -/
lemma softmaxV1_eq_map {c : ℕ} (hc : c ≠ 0) (row : List F) :
    softmaxV1 c row =
      row.map (fun v => F.div (F.exp (F.sub v (accumRow c row).1)) (accumRow c row).2) := by
  rw [softmaxV1]
  have : (chunkList c row).map (emitChunk (accumRow c row).1 (accumRow c row).2)
      = (chunkList c row).map
          (List.map (fun v => F.div (F.exp (F.sub v (accumRow c row).1)) (accumRow c row).2)) := rfl
  rw [this, ← List.map_flatten, chunkList_join hc]

lemma softmaxNaive_eq_map {c : ℕ} (hc : c ≠ 0) (row : List F) :
    softmaxNaive c row =
      row.map (fun v => F.div (F.exp (F.sub v (naiveMax c row)))
        (naiveExpSum c row (naiveMax c row))) := by
  rw [softmaxNaive]
  have : (chunkList c row).map
        (emitChunk (naiveMax c row) (naiveExpSum c row (naiveMax c row)))
      = (chunkList c row).map
          (List.map (fun v => F.div (F.exp (F.sub v (naiveMax c row)))
            (naiveExpSum c row (naiveMax c row)))) := rfl
  rw [this, ← List.map_flatten, chunkList_join hc]

lemma chunks_isExt {c : ℕ} (hc : c ≠ 0) {row : List F}
    (hext : ∀ v ∈ row, v.isExt) :
    ∀ ch ∈ chunkList c row, ∀ v ∈ ch, v.isExt :=
  fun ch hch v hv => hext v (mem_of_mem_chunkList hc hch hv)

lemma map_num_isExt (rs : List ℝ) : ∀ v ∈ rs.map F.num, v.isExt := by
  intro v hv
  rcases List.mem_map.mp hv with ⟨r, _, rfl⟩
  exact F.isExt_num r

lemma finVals_take_map_num {rs : List ℝ} {c : ℕ} (hc : c ≠ 0) (hne : rs ≠ []) :
    finVals ((rs.map F.num).take c) ≠ [] := by
  rw [← List.map_take, finVals_map_num]
  intro habs
  rcases List.take_eq_nil_iff.mp habs with h | h
  · exact hc h
  · exact hne h

/-- Closed form of `softmax_kernel_v1` on a row of finite values: it
computes exactly the reference softmax of the specification. -/
lemma softmaxV1_eq_spec {rs : List ℝ} {c : ℕ} (hc : c ≠ 0) (hne : rs ≠ []) :
    softmaxV1 c (rs.map F.num) = (softmaxSpec rs).map F.num := by
  have hS : 0 < rowExpSum (rowMax rs) rs := rowExpSum_pos _ hne
  rw [softmaxV1_eq_map hc,
    accumRow_closed hc (map_num_isExt rs) (finVals_take_map_num hc hne),
    finVals_map_num]
  simp only [softmaxSpec, List.map_map]
  refine List.map_congr_left fun r _ => ?_
  simp only [Function.comp_apply, F.sub_num_num, F.exp_num]
  exact F.div_num_num _ _ hS.ne'

lemma foldr_max_init {A : List F} (hA : ∀ v ∈ A, v.isExt) {x : F} (hx : x.isExt) :
    A.foldr F.max x = F.max (chunkMax A) x := by
  induction A with
  | nil => exact (F.max_ninf_left hx).symm
  | cons v t ih =>
      simp only [List.foldr_cons, chunkMax_cons]
      rw [ih (fun w hw => hA w (List.mem_cons_of_mem _ hw)),
        F.max_assoc_ext (hA v (List.mem_cons_self v t))
          (chunkMax_isExt fun w hw => hA w (List.mem_cons_of_mem _ hw)) hx]

lemma chunkMax_append {A B : List F} (hA : ∀ v ∈ A, v.isExt)
    (hB : ∀ v ∈ B, v.isExt) :
    chunkMax (A ++ B) = F.max (chunkMax A) (chunkMax B) := by
  show (A ++ B).foldr F.max F.ninf = _
  rw [List.foldr_append]
  exact foldr_max_init hA (chunkMax_isExt hB)

lemma F.max_ninf_right {x : F} (hx : x.isExt) : F.max x F.ninf = x := by
  rcases hx with h | ⟨r, h⟩ <;> subst h <;> simp

lemma naiveMax_fold (chs : List (List F))
    (hext : ∀ ch ∈ chs, ∀ v ∈ ch, v.isExt) : ∀ m : F, m.isExt →
    chs.foldl (fun m ch => F.max m (chunkMax ch)) m = F.max m (chunkMax chs.flatten) := by
  induction chs with
  | nil =>
      intro m hm
      exact (F.max_ninf_right hm).symm
  | cons ch rest ih =>
      intro m hm
      have hch : ∀ v ∈ ch, v.isExt := hext ch (List.mem_cons_self ch rest)
      have hrest : ∀ ch2 ∈ rest, ∀ v ∈ ch2, v.isExt :=
        fun ch2 h2 => hext ch2 (List.mem_cons_of_mem ch h2)
      have hflat : ∀ v ∈ rest.flatten, v.isExt := by
        intro v hv
        rcases List.mem_flatten.mp hv with ⟨ch2, h2, hv2⟩
        exact hrest ch2 h2 v hv2
      rw [List.foldl_cons, ih hrest _ (F.max_isExt hm (chunkMax_isExt hch)),
        List.flatten_cons, chunkMax_append hch hflat,
        F.max_assoc_ext hm (chunkMax_isExt hch) (chunkMax_isExt hflat)]

/-- Closed form of pass 1 of `softmax_kernel_naive`: the chunked max
reduction computes the row maximum over the finite lanes. -/
lemma naiveMax_closed {c : ℕ} (hc : c ≠ 0) {row : List F}
    (hext : ∀ v ∈ row, v.isExt) (hfv : finVals row ≠ []) :
    naiveMax c row = F.num (rowMax (finVals row)) := by
  rw [naiveMax, naiveMax_fold _ (chunks_isExt hc hext) _ F.isExt_ninf,
    chunkList_join hc, F.max_ninf_left (chunkMax_isExt hext),
    chunkMax_fin hext hfv]

lemma naiveExpSum_fold (chs : List (List F))
    (hext : ∀ ch ∈ chs, ∀ v ∈ ch, v.isExt) (M : ℝ) : ∀ S : ℝ,
    chs.foldl (fun s ch => F.add s (chunkExpSum (F.num M) ch)) (F.num S)
      = F.num (S + rowExpSum M (finVals chs.flatten)) := by
  induction chs with
  | nil => intro S; simp
  | cons ch rest ih =>
      intro S
      have hch : ∀ v ∈ ch, v.isExt := hext ch (List.mem_cons_self ch rest)
      have hrest : ∀ ch2 ∈ rest, ∀ v ∈ ch2, v.isExt :=
        fun ch2 h2 => hext ch2 (List.mem_cons_of_mem ch h2)
      rw [List.foldl_cons, chunkExpSum_fin M hch, F.add_num_num, ih hrest,
        List.flatten_cons, finVals_append, rowExpSum_append, add_assoc]

/-- Closed form of pass 2 of `softmax_kernel_naive` at a finite reference
maximum: the chunked sum computes the stabilized exponential sum over the
finite lanes. -/
lemma naiveExpSum_closed {c : ℕ} (hc : c ≠ 0) {row : List F}
    (hext : ∀ v ∈ row, v.isExt) (M : ℝ) :
    naiveExpSum c row (F.num M) = F.num (rowExpSum M (finVals row)) := by
  rw [naiveExpSum, naiveExpSum_fold _ (chunks_isExt hc hext) M 0,
    chunkList_join hc, zero_add]

lemma finVals_ne_nil_of_take {c : ℕ} {row : List F}
    (h : finVals (row.take c) ≠ []) : finVals row ≠ [] := by
  cases hfv : finVals (row.take c) with
  | nil => exact absurd hfv h
  | cons x t =>
      have hx : x ∈ finVals (row.take c) := by rw [hfv]; exact List.mem_cons_self x t
      have : F.num x ∈ row := List.take_subset c row (mem_finVals.mp hx)
      exact List.ne_nil_of_mem (mem_finVals.mpr this)

/-- Folding the accumulation step over chunks whose first chunk has a finite
lane: the sentinel `(-inf, 0)` state is absorbed by the first chunk and the
result is the plain max / stabilized exponential sum of all finite lanes. -/
lemma foldl_accum_first {ch1 : List F} {chs : List (List F)}
    (hch1 : ∀ v ∈ ch1, v.isExt) (hchs : ∀ ch ∈ chs, ∀ v ∈ ch, v.isExt)
    (hfc : finVals ch1 ≠ []) :
    (ch1 :: chs).foldl accumStep (F.ninf, F.num 0) =
      (F.num (rowMax (finVals (ch1 :: chs).flatten)),
       F.num (rowExpSum (rowMax (finVals (ch1 :: chs).flatten))
         (finVals (ch1 :: chs).flatten))) := by
  rw [List.foldl_cons, accumStep_init hch1 hfc, foldl_accum_good _ hchs,
    List.flatten_cons, finVals_append, rowMax_append _ hfc, rowExpSum_append,
    rowExpSum_rescale]

lemma nonpos_num_of_le {x K : ℝ} (h : x ≤ K) : (F.sub (F.num x) (F.num K)).nonpos := by
  rw [F.sub_num_num]
  exact Or.inr ⟨x - K, rfl, sub_nonpos.mpr h⟩

lemma accumArgs_nonpos_fold :
    ∀ (chs : List (List F)),
      (∀ ch ∈ chs, ch ≠ [] ∧ ∀ v ∈ ch, ∃ r : ℝ, v = F.num r) →
    ∀ (m : F) (acc : List F), m.isExt → (∀ a ∈ acc, a.nonpos) →
    ∀ a ∈ (chs.foldl accumExpArgsStep (m, acc)).2, a.nonpos := by
  intro chs
  induction chs with
  | nil =>
      intro _ m acc _ hacc a ha
      exact hacc a ha
  | cons ch rest ih =>
      intro hchs m acc hm hacc a ha
      obtain ⟨hne, hnum⟩ := hchs ch (List.mem_cons_self ch rest)
      have hext : ∀ v ∈ ch, v.isExt := by
        intro v hv
        obtain ⟨r, hr⟩ := hnum v hv
        subst hr
        exact F.isExt_num r
      have hfc : finVals ch ≠ [] := by
        cases ch with
        | nil => exact absurd rfl hne
        | cons v t =>
            obtain ⟨r, hr⟩ := hnum v (List.mem_cons_self v t)
            subst hr
            simp
      have hcm : chunkMax ch = F.num (rowMax (finVals ch)) := chunkMax_fin hext hfc
      have hbatch : ∀ b ∈ F.sub m (F.max m (chunkMax ch))
          :: ch.map (fun v => F.sub v (F.max m (chunkMax ch))), b.nonpos := by
        intro b hb
        rcases List.mem_cons.mp hb with hb | hb
        · subst hb
          rcases hm with h | ⟨M, h⟩ <;> subst h
          · rw [hcm, F.max_ninf_num, F.sub_ninf_num]
            exact Or.inl rfl
          · rw [hcm, F.max_num_num]
            exact nonpos_num_of_le (le_max_left M _)
        · rcases List.mem_map.mp hb with ⟨v, hv, rfl⟩
          obtain ⟨x, hx⟩ := hnum v hv
          subst hx
          have hxle : x ≤ rowMax (finVals ch) :=
            mem_le_rowMax (mem_finVals.mpr hv)
          rcases hm with h | ⟨M, h⟩ <;> subst h
          · rw [hcm, F.max_ninf_num]
            exact nonpos_num_of_le hxle
          · rw [hcm, F.max_num_num]
            exact nonpos_num_of_le (le_trans hxle (le_max_right M _))
      have hrest : ∀ ch2 ∈ rest, ch2 ≠ [] ∧ ∀ v ∈ ch2, ∃ r : ℝ, v = F.num r :=
        fun ch2 h2 => hchs ch2 (List.mem_cons_of_mem ch h2)
      rw [List.foldl_cons] at ha
      refine ih hrest (F.max m (chunkMax ch)) _
        (F.max_isExt hm (chunkMax_isExt hext)) ?_ a ha
      intro b hb
      rcases List.mem_append.mp hb with hb | hb
      · exact hacc b hb
      · exact hbatch b hb

lemma chunks_of_map_num {c : ℕ} (hc : c ≠ 0) (rs : List ℝ) :
    ∀ ch ∈ chunkList c (rs.map F.num), ch ≠ [] ∧ ∀ v ∈ ch, ∃ r : ℝ, v = F.num r := by
  intro ch hch
  refine ⟨chunkList_ne_nil hc hch, ?_⟩
  intro v hv
  have : v ∈ rs.map F.num := mem_of_mem_chunkList hc hch hv
  rcases List.mem_map.mp this with ⟨r, _, rfl⟩
  exact ⟨r, rfl⟩

lemma sum_map_div (l : List ℝ) (f : ℝ → ℝ) (S : ℝ) :
    (l.map (fun v => f v / S)).sum = (l.map f).sum / S := by
  induction l with
  | nil => simp
  | cons x t ih => simp [ih, add_div]

lemma foldl_max_shift (xs : List ℝ) (k : ℝ) : ∀ a : ℝ,
    (xs.map (fun r => r + k)).foldl Max.max (a + k) = xs.foldl Max.max a + k := by
  induction xs with
  | nil => intro a; rfl
  | cons b t ih =>
      intro a
      simp only [List.map_cons, List.foldl_cons]
      rw [max_add_add_right]
      exact ih (Max.max a b)

lemma rowMax_shift (rs : List ℝ) (k : ℝ) (hne : rs ≠ []) :
    rowMax (rs.map (fun r => r + k)) = rowMax rs + k := by
  cases rs with
  | nil => exact absurd rfl hne
  | cons x xs =>
      show ((xs.map fun r => r + k)).foldl Max.max (x + k) = _
      exact foldl_max_shift xs k x

lemma rowExpSum_shift (rs : List ℝ) (M k : ℝ) :
    rowExpSum (M + k) (rs.map (fun r => r + k)) = rowExpSum M rs := by
  induction rs with
  | nil => simp
  | cons x t ih =>
      simp only [List.map_cons, rowExpSum_cons, ih]
      ring_nf

lemma softmaxSpec_shift (rs : List ℝ) (k : ℝ) (hne : rs ≠ []) :
    softmaxSpec (rs.map (fun r => r + k)) = softmaxSpec rs := by
  rw [softmaxSpec, softmaxSpec, rowMax_shift rs k hne, rowExpSum_shift,
    List.map_map]
  refine List.map_congr_left fun r _ => ?_
  simp only [Function.comp_apply]
  ring_nf

lemma finVals_all_ninf {ch : List F} (h : ∀ v ∈ ch, v = F.ninf) :
    finVals ch = [] := by
  induction ch with
  | nil => rfl
  | cons v t ih =>
      rw [h v (List.mem_cons_self v t), finVals_ninf]
      exact ih fun w hw => h w (List.mem_cons_of_mem v hw)

/-- C1: For every row of `n` real numbers (no NaN, `n ≥ 1`) and every chunk
size `c ≥ 1`, the chunked softmax of `softmax_kernel_v1` (accumulation pass
followed by emission pass) returns an output of the same length `n` whose
entry `i` is `exp (in i - M) / S`, with `M` the row maximum and `S` the sum
of `exp (in j - M)` over the row; consequently every output entry is
nonnegative and the output sums to `1`. -/
theorem C1_chunked_softmax_correct (rs : List ℝ) (c : ℕ) (hc : 1 ≤ c)
    (hne : rs ≠ []) :
    softmaxV1 c (rs.map F.num) = (softmaxSpec rs).map F.num
    ∧ (softmaxV1 c (rs.map F.num)).length = rs.length
    ∧ (∀ x ∈ softmaxSpec rs, 0 ≤ x)
    ∧ (softmaxSpec rs).sum = 1 := by
  have hc0 : c ≠ 0 := by omega
  have heq := softmaxV1_eq_spec hc0 hne
  have hS : 0 < rowExpSum (rowMax rs) rs := rowExpSum_pos _ hne
  refine ⟨heq, ?_, ?_, ?_⟩
  · rw [heq]
    simp [softmaxSpec]
  · intro x hx
    rcases List.mem_map.mp hx with ⟨r, _, rfl⟩
    exact div_nonneg (Real.exp_pos _).le hS.le
  · rw [softmaxSpec, sum_map_div]
    exact div_self hS.ne'

/-- C1 witness: the theorem applied to the row `[1, 2, 3, 4]` with chunk
size `2`. -/
theorem C1_witness :
    softmaxV1 2 (([1, 2, 3, 4] : List ℝ).map F.num)
      = (softmaxSpec [1, 2, 3, 4]).map F.num
    ∧ (softmaxSpec ([1, 2, 3, 4] : List ℝ)).sum = 1 :=
  ⟨(C1_chunked_softmax_correct [1, 2, 3, 4] 2 (by decide) (by simp)).1,
   (C1_chunked_softmax_correct [1, 2, 3, 4] 2 (by decide) (by simp)).2.2.2⟩

/-- C2 counterexample: the two kernels do NOT agree on every row.  On the
row `[-inf, 0]` with chunk size `1` (an all-`-inf` chunk preceding every
finite entry), the naive kernel outputs `[0, 1]`, while the online kernel's
first iteration computes `0 * exp(-inf - (-inf)) = 0 * exp(NaN) = NaN` and
poisons the running sum, so it outputs `[NaN, NaN]`. -/
theorem C2_counterexample :
    softmaxNaive 1 [F.ninf, F.num 0] = [F.num 0, F.num 1]
    ∧ softmaxV1 1 [F.ninf, F.num 0] = [F.nan, F.nan]
    ∧ softmaxNaive 1 [F.ninf, F.num 0] ≠ softmaxV1 1 [F.ninf, F.num 0] := by
  have hch : chunkList 1 [F.ninf, F.num 0] = [[F.ninf], [F.num 0]] := by
    simp [chunkList_cons, chunkList_nil]
  have hnaive : softmaxNaive 1 [F.ninf, F.num 0] = [F.num 0, F.num 1] := by
    rw [softmaxNaive, hch]
    simp [naiveMax, naiveExpSum, hch, emitChunk, F.div_num_num, Real.exp_zero]
  have hv1 : softmaxV1 1 [F.ninf, F.num 0] = [F.nan, F.nan] := by
    have hacc : accumRow 1 [F.ninf, F.num 0] = (F.num 0, F.nan) := by
      rw [accumRow, hch]
      simp [accumStep]
    rw [softmaxV1, hch, hacc]
    simp [emitChunk]
  refine ⟨hnaive, hv1, ?_⟩
  rw [hnaive, hv1]
  simp

/-- C2 (amended): whenever the first chunk contains at least one finite
entry — in particular for every row of real numbers, with any chunk size —
the naive three-pass kernel and the online single-accumulation-pass kernel
produce exactly the same output row. -/
theorem C2_naive_eq_online {c : ℕ} {row : List F} (hc : 1 ≤ c)
    (hext : ∀ v ∈ row, v.isExt) (hfirst : finVals (row.take c) ≠ []) :
    softmaxNaive c row = softmaxV1 c row := by
  have hc0 : c ≠ 0 := by omega
  have hfv := finVals_ne_nil_of_take hfirst
  rw [softmaxNaive, softmaxV1, naiveMax_closed hc0 hext hfv,
    naiveExpSum_closed hc0 hext, accumRow_closed hc0 hext hfirst]

/-- C2 witness: the amended theorem applied to the all-finite row `[1, 2]`
with chunk size `1`. -/
theorem C2_witness :
    softmaxNaive 1 [F.num 1, F.num 2] = softmaxV1 1 [F.num 1, F.num 2] :=
  C2_naive_eq_online (by decide)
    (by
      intro v hv
      rcases List.mem_cons.mp hv with h | h
      · subst h; exact F.isExt_num 1
      · rcases List.mem_cons.mp h with h2 | h2
        · subst h2; exact F.isExt_num 2
        · simp at h2)
    (by simp)

/-- C3: for every NaN-free row and any two chunk sizes `c1, c2 ≥ 1`, the
chunked softmax gives identical results: the chunk size is an
implementation detail with no effect on the output. -/
theorem C3_chunk_size_irrelevant (rs : List ℝ) (c1 c2 : ℕ) (h1 : 1 ≤ c1)
    (h2 : 1 ≤ c2) (hne : rs ≠ []) :
    softmaxV1 c1 (rs.map F.num) = softmaxV1 c2 (rs.map F.num) := by
  rw [softmaxV1_eq_spec (by omega) hne, softmaxV1_eq_spec (by omega) hne]

/-- C3 witness: chunk sizes `1` and `2` on the row `[1, 2, 3]`. -/
theorem C3_witness :
    softmaxV1 1 (([1, 2, 3] : List ℝ).map F.num)
      = softmaxV1 2 (([1, 2, 3] : List ℝ).map F.num) :=
  C3_chunk_size_irrelevant [1, 2, 3] 1 2 (by decide) (by decide) (by simp)

/-- C4: after the accumulation loop of `softmax_kernel_v1` has processed
all chunks of a NaN-free row, the final `running_max` equals the true row
maximum and the final `running_sum` equals the sum over the whole row of
`exp (value - running_max)`. -/
theorem C4_accumulator_final (rs : List ℝ) (c : ℕ) (hc : 1 ≤ c)
    (hne : rs ≠ []) :
    accumRow c (rs.map F.num)
      = (F.num (rowMax rs), F.num (rowExpSum (rowMax rs) rs)) := by
  have hc0 : c ≠ 0 := by omega
  have h := accumRow_closed hc0 (map_num_isExt rs) (finVals_take_map_num hc0 hne)
  rwa [finVals_map_num] at h

/-- C4 witness: the row `[3, 7, 5]` with chunk size `2`. -/
theorem C4_witness :
    accumRow 2 (([3, 7, 5] : List ℝ).map F.num)
      = (F.num (rowMax [3, 7, 5]), F.num (rowExpSum (rowMax [3, 7, 5]) [3, 7, 5])) :=
  C4_accumulator_final [3, 7, 5] 2 (by decide) (by simp)

/-- C5 counterexample: the kernel performs no precondition validation.  A
NaN in the input is not reported before computation begins: the computation
proceeds and returns a (complete) output row in which the NaN has
propagated. -/
theorem C5_counterexample : softmaxV1 1 [F.nan] = [F.nan] := by
  have hch : chunkList 1 [F.nan] = [[F.nan]] := by
    simp [chunkList_cons, chunkList_nil]
  have hacc : accumRow 1 [F.nan] = (F.ninf, F.nan) := by
    rw [accumRow, hch]
    simp [accumStep]
  rw [softmaxV1, hch, hacc]
  simp [emitChunk]

/-- C5 (amended): the kernel contains no input validation; a NaN input is
processed silently and propagates into the output rather than being
reported before computation.  Under the preconditions (`len ≥ 1`,
`chunk_size ≥ 1`, no NaN) the computation is total: it returns a complete
output row of the input's length, all of whose entries are finite. -/
theorem C5_no_validation_total (rs : List ℝ) (c : ℕ) (hc : 1 ≤ c)
    (hne : rs ≠ []) :
    (softmaxV1 c (rs.map F.num)).length = rs.length
    ∧ ∀ v ∈ softmaxV1 c (rs.map F.num), ∃ r : ℝ, v = F.num r := by
  rw [softmaxV1_eq_spec (by omega) hne]
  constructor
  · simp [softmaxSpec]
  · intro v hv
    rcases List.mem_map.mp hv with ⟨r, _, rfl⟩
    exact ⟨r, rfl⟩

/-- C5 witness: the row `[7]` with chunk size `3`. -/
theorem C5_witness :
    (softmaxV1 3 (([7] : List ℝ).map F.num)).length = ([7] : List ℝ).length
    ∧ ∀ v ∈ softmaxV1 3 (([7] : List ℝ).map F.num), ∃ r : ℝ, v = F.num r :=
  C5_no_validation_total [7] 3 (by decide) (by simp)

/-- C6 counterexample: not every output entry lies strictly inside `(0, 1)`:
for the single-element row `[0]` the output entry is exactly `1`. -/
theorem C6_counterexample :
    softmaxV1 1 [F.num 0] = [F.num 1] ∧ ¬ ((1 : ℝ) < 1) := by
  constructor
  · have h : [F.num 0] = ([0] : List ℝ).map F.num := by simp
    rw [h, softmaxV1_eq_spec one_ne_zero (by simp)]
    simp [softmaxSpec, rowMax, rowExpSum]
  · exact lt_irrefl 1

/-- C6 (amended): every output entry of the chunked softmax of a NaN-free
row lies in the half-open interval `(0, 1]`; it is strictly below `1`
whenever the row has at least two entries (for a single-entry row the
output entry equals `1`). -/
theorem C6_entries_in_unit_interval (rs : List ℝ) (c : ℕ) (hc : 1 ≤ c)
    (hne : rs ≠ []) :
    ∀ v ∈ softmaxV1 c (rs.map F.num), ∃ r : ℝ, v = F.num r
      ∧ 0 < r ∧ r ≤ 1 ∧ (2 ≤ rs.length → r < 1) := by
  have hS : 0 < rowExpSum (rowMax rs) rs := rowExpSum_pos _ hne
  rw [softmaxV1_eq_spec (by omega) hne]
  intro v hv
  rcases List.mem_map.mp hv with ⟨y, hy, rfl⟩
  rcases List.mem_map.mp hy with ⟨x, hx, rfl⟩
  refine ⟨_, rfl, ?_, ?_, ?_⟩
  · exact div_pos (Real.exp_pos _) hS
  · exact (div_le_one hS).mpr (exp_le_rowExpSum hx)
  · intro hlen
    exact (div_lt_one hS).mpr (exp_lt_rowExpSum hx hlen)

/-- C6 witness: the row `[1, 2]` with chunk size `1`. -/
theorem C6_witness :
    (1 : ℕ) ≤ 1
    ∧ ∀ v ∈ softmaxV1 1 (([1, 2] : List ℝ).map F.num), ∃ r : ℝ, v = F.num r
      ∧ 0 < r ∧ r ≤ 1 ∧ (2 ≤ ([1, 2] : List ℝ).length → r < 1) :=
  ⟨le_refl 1, C6_entries_in_unit_interval [1, 2] 1 (by decide) (by simp)⟩

/-- C7 counterexample: when the all-`-inf` chunk precedes every finite
entry, the final running sum is NOT strictly positive: on `[-inf, 0]` with
chunk size `1` the first iteration computes `0 * exp(-inf - (-inf)) = NaN`,
which poisons the running sum for good. -/
theorem C7_counterexample :
    (accumRow 1 [F.ninf, F.num 0]).2 = F.nan
    ∧ ¬ ∃ s : ℝ, (accumRow 1 [F.ninf, F.num 0]).2 = F.num s ∧ 0 < s := by
  have hch : chunkList 1 [F.ninf, F.num 0] = [[F.ninf], [F.num 0]] := by
    simp [chunkList_cons, chunkList_nil]
  have hacc : accumRow 1 [F.ninf, F.num 0] = (F.num 0, F.nan) := by
    rw [accumRow, hch]
    simp [accumStep]
  rw [hacc]
  refine ⟨rfl, ?_⟩
  rintro ⟨s, hs, _⟩
  simp at hs

/-- C7 (amended): provided the FIRST chunk contains at least one finite
entry, an all-`-inf` chunk is harmless: processing it from a finite state
leaves `(running_max, running_sum)` exactly unchanged; moreover the final
`running_max` equals the maximum over the finite entries and the final
`running_sum` is strictly positive, so the emission pass never divides by
zero. -/
theorem C7_masked_chunk_safe {c : ℕ} {row : List F} (hc : 1 ≤ c)
    (hext : ∀ v ∈ row, v.isExt) (hfirst : finVals (row.take c) ≠ []) :
    (∀ (M S : ℝ) (ch : List F), (∀ v ∈ ch, v = F.ninf) →
        accumStep (F.num M, F.num S) ch = (F.num M, F.num S))
    ∧ (accumRow c row).1 = F.num (rowMax (finVals row))
    ∧ ∃ s : ℝ, (accumRow c row).2 = F.num s ∧ 0 < s := by
  have hc0 : c ≠ 0 := by omega
  have hclosed := accumRow_closed hc0 hext hfirst
  refine ⟨?_, ?_, ?_⟩
  · intro M S ch hninf
    have hext2 : ∀ v ∈ ch, v.isExt := fun v hv => (hninf v hv) ▸ F.isExt_ninf
    exact accumStep_good_empty hext2 (finVals_all_ninf hninf) M S
  · rw [hclosed]
  · exact ⟨_, by rw [hclosed],
      rowExpSum_pos _ (finVals_ne_nil_of_take hfirst)⟩

/-- C7 witness: the row `[0, -inf]` with chunk size `1`, whose second chunk
is entirely `-inf`. -/
theorem C7_witness :
    (accumRow 1 [F.num 0, F.ninf]).1 = F.num (rowMax (finVals [F.num 0, F.ninf]))
    ∧ ∃ s : ℝ, (accumRow 1 [F.num 0, F.ninf]).2 = F.num s ∧ 0 < s :=
  (C7_masked_chunk_safe (by decide)
    (by
      intro v hv
      rcases List.mem_cons.mp hv with h | h
      · subst h; exact F.isExt_num 0
      · rcases List.mem_cons.mp h with h2 | h2
        · subst h2; exact F.isExt_ninf
        · simp at h2)
    (by simp)).2

/-- C8: shift invariance: adding a constant `k` to every entry of a row
leaves the chunked softmax output unchanged, because the max-subtraction
cancels additive shifts. -/
theorem C8_shift_invariance (rs : List ℝ) (k : ℝ) (c : ℕ) (hc : 1 ≤ c)
    (hne : rs ≠ []) :
    softmaxV1 c ((rs.map (fun r => r + k)).map F.num)
      = softmaxV1 c (rs.map F.num) := by
  have hne2 : rs.map (fun r => r + k) ≠ [] := by
    simp [hne]
  rw [softmaxV1_eq_spec (by omega) hne2, softmaxV1_eq_spec (by omega) hne,
    softmaxSpec_shift rs k hne]

/-- C8 witness: the row `[1, 2]` shifted by `5`, chunk size `1`. -/
theorem C8_witness :
    softmaxV1 1 ((([1, 2] : List ℝ).map (fun r => r + 5)).map F.num)
      = softmaxV1 1 (([1, 2] : List ℝ).map F.num) :=
  C8_shift_invariance [1, 2] 5 1 (by decide) (by simp)

/-- C9: with the max-subtraction stabilization, every argument passed to
`tl.exp` in both the accumulation and the emission pass of
`softmax_kernel_v1` is `≤ 0` (either `-inf` or a nonpositive finite real),
so `exp` can never overflow, even for rows of large dynamic range. -/
theorem C9_exp_args_nonpos (rs : List ℝ) (c : ℕ) (hc : 1 ≤ c)
    (hne : rs ≠ []) :
    (∀ a ∈ accumExpArgs c (rs.map F.num), a.nonpos)
    ∧ (∀ a ∈ emitExpArgs c (rs.map F.num), a.nonpos) := by
  have hc0 : c ≠ 0 := by omega
  constructor
  · intro a ha
    rw [accumExpArgs] at ha
    exact accumArgs_nonpos_fold _ (chunks_of_map_num hc0 rs) F.ninf []
      F.isExt_ninf (by simp) a ha
  · intro a ha
    rw [emitExpArgs] at ha
    rcases List.mem_flatten.mp ha with ⟨chm, hchm, hachm⟩
    rcases List.mem_map.mp hchm with ⟨ch, hch, rfl⟩
    rcases List.mem_map.mp hachm with ⟨v, hv, rfl⟩
    have hvrow : v ∈ rs.map F.num := mem_of_mem_chunkList hc0 hch hv
    rcases List.mem_map.mp hvrow with ⟨x, hx, rfl⟩
    rw [accumRow_closed hc0 (map_num_isExt rs) (finVals_take_map_num hc0 hne),
      finVals_map_num]
    exact nonpos_num_of_le (mem_le_rowMax hx)

/-- C9 witness: the large-dynamic-range row `[1000, 1, 1]` with chunk
size `1`. -/
theorem C9_witness :
    (∀ a ∈ accumExpArgs 1 (([1000, 1, 1] : List ℝ).map F.num), a.nonpos)
    ∧ ∀ a ∈ emitExpArgs 1 (([1000, 1, 1] : List ℝ).map F.num), a.nonpos :=
  C9_exp_args_nonpos [1000, 1, 1] 1 (by decide) (by simp)

/-- C10: the sentinel initialization `(running_max, running_sum) = (-inf, 0)`
is harmless whenever the first chunk contains at least one finite entry: the
first rescale term `0 * exp(-inf - new_max)` is exactly `0`, the state after
the first chunk equals the chunk's plain maximum and plain stabilized
exponential sum, and at every later chunk boundary the state equals the
plain maximum / stabilized exponential sum of the finite entries processed
so far. -/
theorem C10_sentinel_init_harmless {c : ℕ} {row : List F} (hc : 1 ≤ c)
    (hext : ∀ v ∈ row, v.isExt) (hfirst : finVals (row.take c) ≠ []) :
    F.mul (F.num 0) (F.exp (F.sub F.ninf (chunkMax (row.take c)))) = F.num 0
    ∧ accumStep (F.ninf, F.num 0) (row.take c) =
        (F.num (rowMax (finVals (row.take c))),
         F.num (rowExpSum (rowMax (finVals (row.take c))) (finVals (row.take c))))
    ∧ ∀ k : ℕ, 1 ≤ k →
        ((chunkList c row).take k).foldl accumStep (F.ninf, F.num 0) =
          (F.num (rowMax (finVals ((chunkList c row).take k).flatten)),
           F.num (rowExpSum (rowMax (finVals ((chunkList c row).take k).flatten))
             (finVals ((chunkList c row).take k).flatten))) := by
  have hc0 : c ≠ 0 := by omega
  have hrow : row ≠ [] := by
    intro h
    subst h
    simp at hfirst
  have htake : ∀ v ∈ row.take c, v.isExt :=
    fun v hv => hext v (List.take_subset c row hv)
  refine ⟨?_, accumStep_init htake hfirst, ?_⟩
  · rw [chunkMax_fin htake hfirst, F.sub_ninf_num, F.exp_ninf, F.mul_num_num]
    norm_num
  · intro k hk
    cases k with
    | zero => omega
    | succ k =>
        rw [chunkList_cons hc0 hrow, List.take_succ_cons]
        have hchs : ∀ ch ∈ (chunkList c (row.drop c)).take k, ∀ v ∈ ch, v.isExt :=
          fun ch hch v hv =>
            hext v (List.drop_subset c row
              (mem_of_mem_chunkList hc0 (List.take_subset k _ hch) hv))
        exact foldl_accum_first htake hchs hfirst

/-- C10 witness: the row `[1, 2]` with chunk size `1`, first conjunct and
the state after the first chunk boundary. -/
theorem C10_witness :
    accumStep (F.ninf, F.num 0) (([F.num 1, F.num 2]).take 1) =
      (F.num (rowMax (finVals (([F.num 1, F.num 2]).take 1))),
       F.num (rowExpSum (rowMax (finVals (([F.num 1, F.num 2]).take 1)))
         (finVals (([F.num 1, F.num 2]).take 1)))) :=
  (C10_sentinel_init_harmless (by decide)
    (by
      intro v hv
      rcases List.mem_cons.mp hv with h | h
      · subst h; exact F.isExt_num 1
      · rcases List.mem_cons.mp h with h2 | h2
        · subst h2; exact F.isExt_num 2
        · simp at h2)
    (by simp)).2.1

end
